import Mathlib

/-!
Shallow embedding of the rtags FileManager (src/src/FileManager.cpp).

The state of a FileManager is the project files map (FilesMap, a map from
absolute directory path to the set of file names directly inside it) together
with the set of directories currently watched by the DirectoryWatcher.
Handlers additionally emit a trace of observable effects (watch and unwatch
calls, asynchronous reload requests, anomaly log lines).

Helpers of the Path and Filter classes that are not part of
src/src/FileManager.cpp are modelled from the spec and marked as such in
their doc comments.
-/

set_option autoImplicit false

/-- Result type of the path classifier (Filter::filter), as consumed by the
switch statements in FileManager.cpp. -/
inductive FilterResult where
  | Filtered
  | Directory
  | File
  | Source
deriving DecidableEq

/-- Modelled from the spec: Path::parentDir computes the parent directory of
a path, everything before the final path separator; a path with no separator
has the empty parent. -/
def parentDir (p : String) : String :=
  match p.data.reverse.dropWhile (fun c => c ≠ '/') with
  | [] => ""
  | _ :: rest => String.mk rest.reverse

/-- Modelled from the spec: Path::fileName is the base name of the path,
everything after the final path separator. -/
def fileName (p : String) : String :=
  String.mk (p.data.reverse.takeWhile (fun c => c ≠ '/')).reverse

/-- The server options consulted by FileManager::watch: the
Server::NoFileManagerWatch option bit. -/
structure Config where
  noFileManagerWatch : Bool
deriving DecidableEq

/-- Observable side effects of the FileManager handlers: calls into
FileManager::watch, DirectoryWatcher::unwatch, asynchronous reload requests
and anomaly log lines. -/
inductive Effect where
  | watchCall (p : String)
  | unwatchCall (p : String)
  | reloadAsync
  | logAnomaly (p : String)
deriving DecidableEq

/-- The FilesMap of Project.h as used by FileManager.cpp: a map from absolute
directory path to the set of file names directly contained in it. -/
abbrev FilesMap := List (String × List String)

/-- The mutable state of a FileManager: the files map of the owning project
and the set of paths currently watched by mWatcher. -/
structure FMState where
  files : FilesMap
  watches : List String
deriving DecidableEq

/-- Set insertion (Set::insert): append if not already present. -/
def setInsert (s : List String) (x : String) : List String :=
  if x ∈ s then s else s ++ [x]

/-- Set removal (Set::remove). -/
def setRemove : List String → String → List String
  | [], _ => []
  | y :: rest, x => if y = x then setRemove rest x else y :: setRemove rest x

/-- Map access followed by set insertion: the pair
  Set of String dir = map at parent; dir.insert(name)
from the handlers, creating the key when absent. -/
def mapInsertFile : FilesMap → String → String → FilesMap
  | [], k, v => [(k, [v])]
  | (k0, s) :: rest, k, v =>
    if k0 = k then (k0, setInsert s v) :: rest
    else (k0, s) :: mapInsertFile rest k v

/-- Map lookup (Map::value / contains). -/
def mapFind : FilesMap → String → Option (List String)
  | [], _ => none
  | (k0, s) :: rest, k => if k0 = k then some s else mapFind rest k

/-- Map::contains. -/
def mapContains (m : FilesMap) (k : String) : Bool :=
  (mapFind m k).isSome

/-- Map::remove of a key. -/
def mapRemoveKey : FilesMap → String → FilesMap
  | [], _ => []
  | (k0, s) :: rest, k =>
    if k0 = k then mapRemoveKey rest k else (k0, s) :: mapRemoveKey rest k

/-- Updating the value stored at an existing key in place. -/
def mapSetKey : FilesMap → String → List String → FilesMap
  | [], _, _ => []
  | (k0, s) :: rest, k, v =>
    if k0 = k then (k0, v) :: mapSetKey rest k v
    else (k0, s) :: mapSetKey rest k v

/-- The keys of a FilesMap. -/
def mapKeys (m : FilesMap) : List String := m.map Prod.fst

/-- Contiguous-sublist test on character lists. -/
def listIsInfix (sub : List Char) : List Char → Bool
  | [] => sub.isEmpty
  | c :: rest => List.isPrefixOf sub (c :: rest) || listIsInfix sub rest

/-- Substring test (String::contains). -/
def strContains (s sub : String) : Bool :=
  listIsInfix sub.data s.data

/-- The version-control metadata test of FileManager::watch (line 204):
the path contains a /.git/, /.svn/ or /.cvs/ component. -/
def vcsPath (p : String) : Bool :=
  strContains p "/.git/" || strContains p "/.svn/" || strContains p "/.cvs/"

/-- The condition under which FileManager::watch passes the path through to
mWatcher.watch (lines 203-204): watching not globally disabled and no
version-control metadata component in the path. -/
def watchAllowed (cfg : Config) (p : String) : Bool :=
  !cfg.noFileManagerWatch && !vcsPath p

/-- FileManager::watch (lines 201-207): pass-through to mWatcher.watch,
refused for version-control paths and when the NoFileManagerWatch option is
set. Returns the new watch set. -/
def FileManager.watch (cfg : Config) (w : List String) (p : String) : List String :=
  if watchAllowed cfg p then setInsert w p else w

/-- Error outcome modelling the dereference of an expired owner handle:
the code calls through the shared pointer obtained from mProject.lock()
without checking it for null. -/
inductive FMError where
  | staleOwnerAccess
deriving DecidableEq

/-- One iteration of the loop of FileManager::onRecurseJobFinished
(lines 112-122): compute the parent; an empty parent is logged and skipped,
otherwise the key is created, the parent watched and the file name inserted. -/
def recurseStep (cfg : Config) (acc : FMState × List Effect) (p : String) :
    FMState × List Effect :=
  let parent := parentDir p
  if parent = "" then (acc.1, acc.2 ++ [Effect.logAnomaly p])
  else
    ({ files := mapInsertFile acc.1.files parent (fileName p),
       watches := FileManager.watch cfg acc.1.watches parent },
     acc.2 ++ [Effect.watchCall parent])

/-- FileManager::onRecurseJobFinished (lines 102-124): the files map is
cleared and the watcher cleared (the prior state is discarded), then the scan
result is folded in path by path. -/
def FileManager.onRecurseJobFinished (cfg : Config) (_st0 : FMState)
    (paths : List String) : FMState × List Effect :=
  paths.foldl (recurseStep cfg) (FMState.mk [] [], [])

/-- FileManager::onFileAdded (lines 126-158). The empty path and Filtered
paths return before the project handle is dereferenced; the Directory branch
reaches the dereference through reload/startScanThread, the file branch
through project->files(); with an expired owner those dereferences are the
invalid access modelled by the error value. -/
def FileManager.onFileAdded (alive : Bool) (cfg : Config)
    (cls : String → FilterResult) (st : FMState) (path : String) :
    Except FMError (FMState × List Effect) :=
  if path = "" then Except.ok (st, [])
  else
    match cls path with
    | FilterResult.Directory =>
        if alive then
          Except.ok ({ st with watches := FileManager.watch cfg st.watches path },
                     [Effect.watchCall path, Effect.reloadAsync])
        else Except.error FMError.staleOwnerAccess
    | FilterResult.Filtered => Except.ok (st, [])
    | _ =>
        if alive then
          let parent := parentDir path
          if parent = "" then
            Except.ok (st, [Effect.logAnomaly path, Effect.reloadAsync])
          else
            Except.ok ({ files := mapInsertFile st.files parent (fileName path),
                         watches := FileManager.watch cfg st.watches parent },
                       [Effect.watchCall parent])
        else Except.error FMError.staleOwnerAccess

/-- FileManager::onFileRemoved (lines 160-179). The shared pointer obtained
from mProject.lock() is dereferenced with no liveness check (line 165), so an
expired owner is the invalid access modelled by the error value. -/
def FileManager.onFileRemoved (alive : Bool) (st : FMState) (path : String) :
    Except FMError (FMState × List Effect) :=
  if alive then
    if mapContains st.files path then Except.ok (st, [Effect.reloadAsync])
    else
      let parent := parentDir path
      match mapFind st.files parent with
      | none => Except.ok (st, [])
      | some dir =>
          let dir' := setRemove dir (fileName path)
          if dir' = [] then
            Except.ok ({ files := mapRemoveKey st.files parent,
                         watches := setRemove st.watches parent },
                       [Effect.unwatchCall parent])
          else
            Except.ok ({ st with files := mapSetKey st.files parent dir' }, [])
  else Except.error FMError.staleOwnerAccess

/-- The static startsWith helper of FileManager.cpp (lines 181-185):
true when the right side is non-empty and the left path starts with it. -/
def pathStartsWith (left right : String) : Bool :=
  if right = "" then false else List.isPrefixOf right.data left.data

/-- FileManager::contains (lines 187-199). The resolve argument models
Path::resolved. Note that after computing the resolved path p the source
tests startsWith(path, ...) again on the original path (line 196), not on p;
the embedding reproduces that. -/
def FileManager.contains (alive : Bool) (resolve : String → String)
    (projPath path : String) : Bool :=
  if alive then
    if pathStartsWith path projPath then true
    else
      let p := resolve path
      if p ≠ path ∧ pathStartsWith path projPath then true else false
  else false

/-- A node of the filesystem under the scan root: a directory (with its
ignore-marker status and children) or a regular file (with a flag for
classification as Source rather than File). -/
inductive FSNode where
  | dir (name : String) (marker : Bool) (children : List FSNode)
  | file (name : String) (src : Bool)

/-- Modelled from the spec: the PathClassifier contract of Filter::filter.
A path matching the exclusion-filter list is Filtered; otherwise a directory
classifies as Directory and a regular file as Source or File. -/
def classifyPath (filters : List String) (path : String) : FSNode → FilterResult
  | FSNode.dir _ _ _ =>
      if path ∈ filters then FilterResult.Filtered else FilterResult.Directory
  | FSNode.file _ s =>
      if path ∈ filters then FilterResult.Filtered
      else if s then FilterResult.Source else FilterResult.File

mutual
/-- The visitor callback of ScanThread::paths (lines 42-58) applied to one
node, over a driver modelled from the spec (Path::visit is not part of
FileManager.cpp): Filtered paths are skipped, directories holding the
.rtags-ignore marker are skipped without descent, other directories are
descended into, File and Source paths are collected. -/
def visitNode (filters : List String) (pre : String) : FSNode → List String
  | FSNode.dir name marker children =>
    let path := pre ++ "/" ++ name
    match classifyPath filters path (FSNode.dir name marker children) with
    | FilterResult.Filtered => []
    | FilterResult.Directory =>
        if marker then [] else visitList filters path children
    | FilterResult.File => [path]
    | FilterResult.Source => [path]
  | FSNode.file name s =>
    let path := pre ++ "/" ++ name
    match classifyPath filters path (FSNode.file name s) with
    | FilterResult.Filtered => []
    | FilterResult.Directory => []
    | FilterResult.File => [path]
    | FilterResult.Source => [path]

/-- The visitor applied to a list of sibling nodes in order. -/
def visitList (filters : List String) (pre : String) : List FSNode → List String
  | [] => []
  | n :: rest => visitNode filters pre n ++ visitList filters pre rest
end

/-- ScanThread::paths (lines 39-61): collect the qualifying absolute paths of
the tree under the root. -/
def ScanThread.paths (filters : List String) (root : String)
    (tree : List FSNode) : List String :=
  visitList filters root tree

/-- ScanThread::run (lines 30-38): the scan result is delivered to
onRecurseJobFinished only when the weak owner reference still resolves;
otherwise delivery is a no-op. -/
def ScanThread.run (ownerAlive : Bool) (cfg : Config) (st : FMState)
    (result : List String) : FMState × List Effect :=
  if ownerAlive then FileManager.onRecurseJobFinished cfg st result
  else (st, [])

mutual
/-- The scan with the filter list read live: ScanThread::mFilters is declared
as a reference to Server options excludeFilters (lines 25 and 64), so every
Filter::filter call reads the configuration value current at that moment.
The argument h is the timeline of configuration values and t the index of the
next classification step; the function returns the collected paths and the
next step index. -/
def visitNodeLive (h : Nat → List String) (t : Nat) (pre : String) :
    FSNode → List String × Nat
  | FSNode.dir name marker children =>
    let path := pre ++ "/" ++ name
    match classifyPath (h t) path (FSNode.dir name marker children) with
    | FilterResult.Filtered => ([], t + 1)
    | FilterResult.Directory =>
        if marker then ([], t + 1) else visitListLive h (t + 1) path children
    | FilterResult.File => ([path], t + 1)
    | FilterResult.Source => ([path], t + 1)
  | FSNode.file name s =>
    let path := pre ++ "/" ++ name
    match classifyPath (h t) path (FSNode.file name s) with
    | FilterResult.Filtered => ([], t + 1)
    | FilterResult.Directory => ([], t + 1)
    | FilterResult.File => ([path], t + 1)
    | FilterResult.Source => ([path], t + 1)

/-- The live-filter scan over a list of sibling nodes, threading the step
index. -/
def visitListLive (h : Nat → List String) (t : Nat) (pre : String) :
    List FSNode → List String × Nat
  | [] => ([], t)
  | n :: rest =>
    let r1 := visitNodeLive h t pre n
    let r2 := visitListLive h r1.2 pre rest
    (r1.1 ++ r2.1, r2.2)
end

example : parentDir "/r/D1/a.c" = "/r/D1" := by decide
example : fileName "/r/D1/a.c" = "a.c" := by decide
example : parentDir "a.c" = "" := by decide

/-! ## Helper lemmas about the container operations -/

theorem mem_setInsert {s : List String} {x a : String} :
    a ∈ setInsert s x ↔ a ∈ s ∨ a = x := by
  unfold setInsert
  by_cases h : x ∈ s
  · simp only [if_pos h]
    constructor
    · exact Or.inl
    · rintro (ha | rfl)
      · exact ha
      · exact h
  · simp only [if_neg h, List.mem_append, List.mem_singleton]

theorem mem_setRemove {s : List String} {x a : String} :
    a ∈ setRemove s x ↔ a ∈ s ∧ a ≠ x := by
  induction s with
  | nil => simp [setRemove]
  | cons y rest ih =>
    simp only [setRemove]
    by_cases h : y = x
    · subst h
      rw [if_pos rfl, ih]
      simp only [List.mem_cons]
      constructor
      · exact fun hp => ⟨Or.inr hp.1, hp.2⟩
      · rintro ⟨rfl | ha, hne⟩
        · exact absurd rfl hne
        · exact ⟨ha, hne⟩
    · rw [if_neg h]
      simp only [List.mem_cons, ih]
      constructor
      · rintro (rfl | ⟨ha, hne⟩)
        · exact ⟨Or.inl rfl, fun hc => h hc⟩
        · exact ⟨Or.inr ha, hne⟩
      · rintro ⟨rfl | ha, hne⟩
        · exact Or.inl rfl
        · exact Or.inr ⟨ha, hne⟩

theorem mem_mapKeys_mapInsertFile {m : FilesMap} {k v a : String} :
    a ∈ mapKeys (mapInsertFile m k v) ↔ a ∈ mapKeys m ∨ a = k := by
  induction m with
  | nil => simp [mapInsertFile, mapKeys]
  | cons e rest ih =>
    obtain ⟨k0, s⟩ := e
    simp only [mapInsertFile]
    by_cases h : k0 = k
    · subst h
      rw [if_pos rfl]
      simp only [mapKeys, List.map_cons, List.mem_cons]
      constructor
      · rintro (rfl | ha)
        · exact Or.inl (Or.inl rfl)
        · exact Or.inl (Or.inr ha)
      · rintro ((rfl | ha) | rfl)
        · exact Or.inl rfl
        · exact Or.inr ha
        · exact Or.inl rfl
    · rw [if_neg h]
      simp only [mapKeys, List.map_cons, List.mem_cons] at ih ⊢
      rw [ih]
      tauto

theorem mem_mapKeys_mapRemoveKey {m : FilesMap} {k a : String} :
    a ∈ mapKeys (mapRemoveKey m k) → a ∈ mapKeys m ∧ a ≠ k := by
  induction m with
  | nil => simp [mapRemoveKey, mapKeys]
  | cons e rest ih =>
    obtain ⟨k0, s⟩ := e
    simp only [mapRemoveKey]
    by_cases h : k0 = k
    · subst h
      rw [if_pos rfl]
      intro ha
      obtain ⟨ha1, ha2⟩ := ih ha
      exact ⟨by simp [mapKeys, List.mem_cons]; exact Or.inr (by simpa [mapKeys] using ha1), ha2⟩
    · rw [if_neg h]
      simp only [mapKeys, List.map_cons, List.mem_cons]
      rintro (rfl | ha)
      · exact ⟨Or.inl rfl, h⟩
      · obtain ⟨ha1, ha2⟩ := ih ha
        exact ⟨Or.inr (by simpa [mapKeys] using ha1), ha2⟩

theorem mapKeys_mapSetKey {m : FilesMap} {k : String} {v : List String} :
    mapKeys (mapSetKey m k v) = mapKeys m := by
  induction m with
  | nil => rfl
  | cons e rest ih =>
    obtain ⟨k0, s⟩ := e
    simp only [mapSetKey]
    by_cases h : k0 = k
    · subst h
      rw [if_pos rfl]
      simp only [mapKeys, List.map_cons] at ih ⊢
      rw [ih]
    · rw [if_neg h]
      simp only [mapKeys, List.map_cons] at ih ⊢
      rw [ih]

theorem mapFind_mapInsertFile_self {m : FilesMap} {k v : String} :
    ∃ dir, mapFind (mapInsertFile m k v) k = some dir ∧ v ∈ dir := by
  induction m with
  | nil =>
    refine ⟨[v], ?_, ?_⟩
    · simp [mapInsertFile, mapFind]
    · simp
  | cons e rest ih =>
    obtain ⟨k0, s⟩ := e
    simp only [mapInsertFile]
    by_cases h : k0 = k
    · subst h
      rw [if_pos rfl]
      refine ⟨setInsert s v, ?_, ?_⟩
      · simp [mapFind]
      · exact mem_setInsert.mpr (Or.inr rfl)
    · rw [if_neg h]
      obtain ⟨dir, h1, h2⟩ := ih
      refine ⟨dir, ?_, h2⟩
      simp only [mapFind, if_neg h]
      exact h1

theorem mem_watch_of_mem {cfg : Config} {w : List String} {p a : String}
    (h : a ∈ w) : a ∈ FileManager.watch cfg w p := by
  unfold FileManager.watch
  split
  · exact mem_setInsert.mpr (Or.inl h)
  · exact h

theorem self_mem_watch {cfg : Config} {w : List String} {p : String}
    (h : watchAllowed cfg p = true) : p ∈ FileManager.watch cfg w p := by
  unfold FileManager.watch
  rw [if_pos h]
  exact mem_setInsert.mpr (Or.inr rfl)

/-! ## Lemmas about the scan-completion fold -/

/-- A scan-result entry qualifies for insertion exactly when its parent
directory is non-empty. -/
def hasParent (p : String) : Bool :=
  if parentDir p = "" then false else true

/-- The state component of the scan-completion fold does not depend on the
effects accumulated so far. -/
theorem foldl_recurseStep_fst (cfg : Config) (l : List String) :
    ∀ (s : FMState) (e e' : List Effect),
      (l.foldl (recurseStep cfg) (s, e)).1 = (l.foldl (recurseStep cfg) (s, e')).1 := by
  induction l with
  | nil => intro s e e'; rfl
  | cons p rest ih =>
    intro s e e'
    simp only [List.foldl_cons]
    by_cases h : parentDir p = ""
    · simp only [recurseStep, if_pos h]
      exact ih s _ _
    · simp only [recurseStep, if_neg h]
      exact ih _ _ _

/-- Entries with an empty parent contribute nothing to the resulting state:
folding the scan result equals folding only its entries with a parent. -/
theorem foldl_recurseStep_filter (cfg : Config) (l : List String) :
    ∀ (s : FMState) (e e' : List Effect),
      (l.foldl (recurseStep cfg) (s, e)).1 =
        ((l.filter hasParent).foldl (recurseStep cfg) (s, e')).1 := by
  induction l with
  | nil => intro s e e'; rfl
  | cons p rest ih =>
    intro s e e'
    by_cases h : parentDir p = ""
    · have hp : hasParent p = false := by simp [hasParent, h]
      simp only [List.foldl_cons, List.filter_cons, hp, Bool.false_eq_true, if_false]
      simp only [recurseStep, if_pos h]
      exact ih s _ e'
    · have hp : hasParent p = true := by simp [hasParent, h]
      simp only [List.foldl_cons, List.filter_cons, hp, if_true]
      simp only [recurseStep, if_neg h]
      exact ih _ _ _

/-! ## C1 -/

/-- C1: onRecurseJobFinished first discards the whole previous state (the
directory map is cleared and all watches unregistered, so the outcome is
independent of the prior state), entries whose parent directory is empty are
skipped without inserting anything (contributing only a logged anomaly),
every other entry has a watch registered on its parent and its file name
inserted into the parent's set, and on the fixture tree with directories
/r/D1, /r/D2 and files /r/D1/a.c, /r/D1/b.h, /r/D2/c.cpp with no exclusion
filters the resulting map is exactly D1 mapped to a.c, b.h and D2 mapped to
c.cpp, with exactly D1 and D2 as watch targets. -/
theorem C1_onScanCompleted :
    (∀ (cfg : Config) (st0 st1 : FMState) (paths : List String),
        FileManager.onRecurseJobFinished cfg st0 paths =
          FileManager.onRecurseJobFinished cfg st1 paths)
    ∧ (∀ (cfg : Config) (st0 : FMState) (paths : List String),
        (FileManager.onRecurseJobFinished cfg st0 paths).1 =
          (FileManager.onRecurseJobFinished cfg st0 (paths.filter hasParent)).1)
    ∧ ((FileManager.onRecurseJobFinished (Config.mk false) (FMState.mk [] [])
          ["/r/D1/a.c", "/r/D1/b.h", "/r/D2/c.cpp"]).1 =
        FMState.mk [("/r/D1", ["a.c", "b.h"]), ("/r/D2", ["c.cpp"])]
          ["/r/D1", "/r/D2"]) := by
  refine ⟨fun cfg st0 st1 paths => rfl, ?_, by decide⟩
  intro cfg st0 paths
  exact foldl_recurseStep_filter cfg paths (FMState.mk [] []) [] []

/-! ## C4 -/

/-- Resolver fixture modelling Path::resolved: the path under the symlinked
ancestor /link resolves to the corresponding path under the project root
/real/. -/
def resolveDemo (p : String) : String :=
  if p = "/link/a.c" then "/real/a.c" else p

/-- C4: contains returns true for the project root itself and false for a
disjoint path, but for a path that lies under the root only after
canonicalization it returns false, because line 196 re-tests the original
path instead of the resolved one: the resolved form of /link/a.c starts with
the project root /real/ and differs from the original, yet contains is
false. -/
theorem C4_contains_ignores_resolved :
    FileManager.contains true resolveDemo "/real/" "/real/" = true
    ∧ FileManager.contains true resolveDemo "/real/" "/real/sub/x.c" = true
    ∧ resolveDemo "/link/a.c" ≠ "/link/a.c"
    ∧ pathStartsWith (resolveDemo "/link/a.c") "/real/" = true
    ∧ FileManager.contains true resolveDemo "/real/" "/link/a.c" = false
    ∧ FileManager.contains true resolveDemo "/real/" "/other/b.c" = false := by
  decide

/-! ## C8 -/

/-- C8: a scan result delivered after the owner is gone is a silent no-op
(ScanThread::run checks the weak reference), but a watcher event delivered
after teardown is not: both onFileRemoved and the file branch of onFileAdded
dereference the expired project handle, an invalid access. -/
theorem C8_stale_owner_access :
    ScanThread.run false (Config.mk false)
        (FMState.mk [("/r/D1", ["a.c"])] ["/r/D1"]) ["/r/D2/c.cpp"] =
      (FMState.mk [("/r/D1", ["a.c"])] ["/r/D1"], [])
    ∧ FileManager.onFileRemoved false
        (FMState.mk [("/r/D1", ["a.c"])] ["/r/D1"]) "/r/D1/a.c" =
      Except.error FMError.staleOwnerAccess
    ∧ FileManager.onFileAdded false (Config.mk false) (fun _ => FilterResult.File)
        (FMState.mk [("/r/D1", ["a.c"])] ["/r/D1"]) "/r/D1/b.c" =
      Except.error FMError.staleOwnerAccess := by
  refine ⟨rfl, rfl, ?_⟩
  simp [FileManager.onFileAdded]

/-! ## C10 -/

/-- C10: onFileAdded never consults the project root: for a non-empty
file/source path with a non-empty parent it inserts the file name under the
parent key and issues the watch call even when the path does not lie under
the project root at all. -/
theorem C10_insert_outside_root (root : String) (cfg : Config)
    (cls : String → FilterResult) (st : FMState) (path : String)
    (hcls : cls path = FilterResult.File ∨ cls path = FilterResult.Source)
    (hne : path ≠ "") (hpar : parentDir path ≠ "")
    (_houtside : pathStartsWith path root = false) :
    ∃ st', FileManager.onFileAdded true cfg cls st path =
        Except.ok (st', [Effect.watchCall (parentDir path)])
      ∧ ∃ dir, mapFind st'.files (parentDir path) = some dir
          ∧ fileName path ∈ dir := by
  refine ⟨FMState.mk (mapInsertFile st.files (parentDir path) (fileName path))
      (FileManager.watch cfg st.watches (parentDir path)), ?_, ?_⟩
  · rcases hcls with h | h <;>
      simp only [FileManager.onFileAdded, if_neg hne, h, if_neg hpar, if_true]
  · exact mapFind_mapInsertFile_self

/-- Witness for C10 at a concrete input entirely outside the project root. -/
theorem C10_insert_outside_root_witness :
    pathStartsWith "/elsewhere/x.c" "/proj" = false
    ∧ ∃ st', FileManager.onFileAdded true (Config.mk false)
          (fun _ => FilterResult.File) (FMState.mk [] []) "/elsewhere/x.c" =
          Except.ok (st', [Effect.watchCall (parentDir "/elsewhere/x.c")])
        ∧ ∃ dir, mapFind st'.files (parentDir "/elsewhere/x.c") = some dir
            ∧ fileName "/elsewhere/x.c" ∈ dir :=
  ⟨by decide,
   C10_insert_outside_root "/proj" (Config.mk false) (fun _ => FilterResult.File)
     (FMState.mk [] []) "/elsewhere/x.c" (Or.inl rfl) (by decide) (by decide)
     (by decide)⟩

/-! ## C5 -/

/-- C5: behaviour of onFileAdded with a live owner: an empty path is
ignored; a Directory path gets the watch call on itself and exactly one
asynchronous reload with the files map untouched (no partial insertion); a
Filtered path is ignored; a file/source path with a non-empty parent gets
the watch call on the parent and its file name inserted into the parent's
set; a file/source path with an empty parent leaves the state unchanged
(hence never inserts an empty-string key), logs the anomaly and triggers
exactly one fallback asynchronous reload. -/
theorem C5_onFileAdded_cases (alive : Bool) (cfg : Config)
    (cls : String → FilterResult) (st : FMState) (path : String) :
    (FileManager.onFileAdded alive cfg cls st "" = Except.ok (st, []))
    ∧ (path ≠ "" → cls path = FilterResult.Directory →
        FileManager.onFileAdded true cfg cls st path =
          Except.ok ({ st with watches := FileManager.watch cfg st.watches path },
                     [Effect.watchCall path, Effect.reloadAsync]))
    ∧ (path ≠ "" → cls path = FilterResult.Filtered →
        FileManager.onFileAdded true cfg cls st path = Except.ok (st, []))
    ∧ (path ≠ "" → (cls path = FilterResult.File ∨ cls path = FilterResult.Source) →
        parentDir path ≠ "" →
        FileManager.onFileAdded true cfg cls st path =
          Except.ok (FMState.mk (mapInsertFile st.files (parentDir path) (fileName path))
                       (FileManager.watch cfg st.watches (parentDir path)),
                     [Effect.watchCall (parentDir path)]))
    ∧ (path ≠ "" → (cls path = FilterResult.File ∨ cls path = FilterResult.Source) →
        parentDir path = "" →
        FileManager.onFileAdded true cfg cls st path =
          Except.ok (st, [Effect.logAnomaly path, Effect.reloadAsync])) := by
  refine ⟨by simp [FileManager.onFileAdded], ?_, ?_, ?_, ?_⟩
  · intro hne hcls
    simp only [FileManager.onFileAdded, if_neg hne, hcls, if_true]
  · intro hne hcls
    simp only [FileManager.onFileAdded, if_neg hne, hcls]
  · intro hne hcls hpar
    rcases hcls with h | h <;>
      simp only [FileManager.onFileAdded, if_neg hne, h, if_neg hpar, if_true]
  · intro hne hcls hpar
    rcases hcls with h | h <;>
      simp only [FileManager.onFileAdded, if_neg hne, h, if_pos hpar, if_true]

/-- Witness for C5 exercising the Directory, Filtered, insertion and
empty-parent branches at concrete inputs. -/
theorem C5_onFileAdded_cases_witness :
    (FileManager.onFileAdded true (Config.mk false) (fun _ => FilterResult.Directory)
        (FMState.mk [] []) "/r/D3" =
      Except.ok (FMState.mk [] ["/r/D3"],
                 [Effect.watchCall "/r/D3", Effect.reloadAsync]))
    ∧ (FileManager.onFileAdded true (Config.mk false) (fun _ => FilterResult.Filtered)
        (FMState.mk [] []) "/r/skip.o" = Except.ok (FMState.mk [] [], []))
    ∧ (FileManager.onFileAdded true (Config.mk false) (fun _ => FilterResult.File)
        (FMState.mk [] []) "/r/D1/a.c" =
      Except.ok (FMState.mk [("/r/D1", ["a.c"])] ["/r/D1"],
                 [Effect.watchCall "/r/D1"]))
    ∧ (FileManager.onFileAdded true (Config.mk false) (fun _ => FilterResult.Source)
        (FMState.mk [] []) "orphan.c" =
      Except.ok (FMState.mk [] [], [Effect.logAnomaly "orphan.c", Effect.reloadAsync])) := by
  refine ⟨?_, ?_, ?_, ?_⟩
  · have h := (C5_onFileAdded_cases true (Config.mk false)
        (fun _ => FilterResult.Directory) (FMState.mk [] []) "/r/D3").2.1
        (by decide) rfl
    rw [h]; rfl
  · have h := (C5_onFileAdded_cases true (Config.mk false)
        (fun _ => FilterResult.Filtered) (FMState.mk [] []) "/r/skip.o").2.2.1
        (by decide) rfl
    rw [h]
  · have h := (C5_onFileAdded_cases true (Config.mk false)
        (fun _ => FilterResult.File) (FMState.mk [] []) "/r/D1/a.c").2.2.2.1
        (by decide) (Or.inl rfl) (by decide)
    rw [h]; rfl
  · have h := (C5_onFileAdded_cases true (Config.mk false)
        (fun _ => FilterResult.Source) (FMState.mk [] []) "orphan.c").2.2.2.2
        (by decide) (Or.inr rfl) (by decide)
    rw [h]

/-! ## C6 -/

/-- C6: behaviour of onFileRemoved with a live owner: a path that is itself
a tracked directory key triggers one asynchronous reload and the map is not
mutated; otherwise, when the parent is a tracked key the file name is
removed from its set, the key being deleted together with exactly one
unwatch call for the parent when the set becomes empty; a path that is
neither a key nor the child of a key leaves the state unchanged. -/
theorem C6_onFileRemoved_cases (st : FMState) (path : String) (dir : List String) :
    (mapContains st.files path = true →
        FileManager.onFileRemoved true st path = Except.ok (st, [Effect.reloadAsync]))
    ∧ (mapContains st.files path = false →
        mapFind st.files (parentDir path) = none →
        FileManager.onFileRemoved true st path = Except.ok (st, []))
    ∧ (mapContains st.files path = false →
        mapFind st.files (parentDir path) = some dir →
        setRemove dir (fileName path) = [] →
        FileManager.onFileRemoved true st path =
          Except.ok (FMState.mk (mapRemoveKey st.files (parentDir path))
                       (setRemove st.watches (parentDir path)),
                     [Effect.unwatchCall (parentDir path)]))
    ∧ (mapContains st.files path = false →
        mapFind st.files (parentDir path) = some dir →
        setRemove dir (fileName path) ≠ [] →
        FileManager.onFileRemoved true st path =
          Except.ok (FMState.mk
              (mapSetKey st.files (parentDir path) (setRemove dir (fileName path)))
              st.watches, [])) := by
  refine ⟨?_, ?_, ?_, ?_⟩
  · intro hc
    simp only [FileManager.onFileRemoved, hc, if_true]
  · intro hc hfind
    simp only [FileManager.onFileRemoved, hc, hfind, if_true, Bool.false_eq_true,
      if_false]
  · intro hc hfind hempty
    simp only [FileManager.onFileRemoved, hc, hfind, hempty, if_true,
      Bool.false_eq_true, if_false]
  · intro hc hfind hnonempty
    simp only [FileManager.onFileRemoved, hc, hfind, if_neg hnonempty, if_true,
      Bool.false_eq_true, if_false]

/-- Witness for C6 exercising the tracked-directory, last-file-removal and
untracked branches at concrete inputs. -/
theorem C6_onFileRemoved_cases_witness :
    (FileManager.onFileRemoved true
        (FMState.mk [("/r/D1", ["a.c"])] ["/r/D1"]) "/r/D1" =
      Except.ok (FMState.mk [("/r/D1", ["a.c"])] ["/r/D1"], [Effect.reloadAsync]))
    ∧ (FileManager.onFileRemoved true
        (FMState.mk [("/r/D1", ["a.c"])] ["/r/D1"]) "/r/D1/a.c" =
      Except.ok (FMState.mk [] [], [Effect.unwatchCall "/r/D1"]))
    ∧ (FileManager.onFileRemoved true
        (FMState.mk [("/r/D1", ["a.c", "b.h"])] ["/r/D1"]) "/r/D1/a.c" =
      Except.ok (FMState.mk [("/r/D1", ["b.h"])] ["/r/D1"], []))
    ∧ (FileManager.onFileRemoved true
        (FMState.mk [("/r/D1", ["a.c"])] ["/r/D1"]) "/r/D2/zz.c" =
      Except.ok (FMState.mk [("/r/D1", ["a.c"])] ["/r/D1"], [])) := by
  refine ⟨?_, ?_, ?_, ?_⟩
  · have h := (C6_onFileRemoved_cases
        (FMState.mk [("/r/D1", ["a.c"])] ["/r/D1"]) "/r/D1" []).1 (by decide)
    rw [h]
  · have h := (C6_onFileRemoved_cases
        (FMState.mk [("/r/D1", ["a.c"])] ["/r/D1"]) "/r/D1/a.c" ["a.c"]).2.2.1
        (by decide) (by decide) (by decide)
    rw [h]; rfl
  · have h := (C6_onFileRemoved_cases
        (FMState.mk [("/r/D1", ["a.c", "b.h"])] ["/r/D1"]) "/r/D1/a.c"
        ["a.c", "b.h"]).2.2.2 (by decide) (by decide) (by decide)
    rw [h]; rfl
  · have h := (C6_onFileRemoved_cases
        (FMState.mk [("/r/D1", ["a.c"])] ["/r/D1"]) "/r/D2/zz.c" []).2.1
        (by decide) (by decide)
    rw [h]

/-! ## C3 -/

/-- Keys produced by the scan-completion fold are never empty. -/
theorem foldl_recurseStep_keys_ne (cfg : Config) (l : List String) :
    ∀ acc : FMState × List Effect,
      (∀ k, k ∈ mapKeys acc.1.files → k ≠ "") →
      ∀ k, k ∈ mapKeys ((l.foldl (recurseStep cfg) acc).1.files) → k ≠ "" := by
  induction l with
  | nil => intro acc h; exact h
  | cons p rest ih =>
    intro acc h
    simp only [List.foldl_cons]
    apply ih
    intro k hk
    by_cases hp : parentDir p = ""
    · simp only [recurseStep, if_pos hp] at hk
      exact h k hk
    · simp only [recurseStep, if_neg hp] at hk
      rcases mem_mapKeys_mapInsertFile.mp hk with h1 | rfl
      · exact h k h1
      · exact hp

/-- Any key of the state produced by onFileAdded is either an old key or
the (necessarily non-empty) parent of the added path. -/
theorem onFileAdded_keys (alive : Bool) (cfg : Config) (cls : String → FilterResult)
    {st st' : FMState} {path : String} {effs : List Effect}
    (hok : FileManager.onFileAdded alive cfg cls st path = Except.ok (st', effs)) :
    ∀ k, k ∈ mapKeys st'.files →
      k ∈ mapKeys st.files ∨ (k = parentDir path ∧ parentDir path ≠ "") := by
  by_cases hne : path = ""
  · subst hne
    simp only [FileManager.onFileAdded, if_pos rfl, if_true] at hok
    rw [Except.ok.injEq, Prod.mk.injEq] at hok
    obtain ⟨rfl, rfl⟩ := hok
    exact fun k hk => Or.inl hk
  · cases hcls : cls path with
    | Directory =>
      cases alive with
      | true =>
        simp only [FileManager.onFileAdded, if_neg hne, hcls, if_true] at hok
        rw [Except.ok.injEq, Prod.mk.injEq] at hok
        obtain ⟨rfl, rfl⟩ := hok
        exact fun k hk => Or.inl hk
      | false =>
        simp only [FileManager.onFileAdded, if_neg hne, hcls, Bool.false_eq_true,
          if_false] at hok
        exact Except.noConfusion hok
    | Filtered =>
      simp only [FileManager.onFileAdded, if_neg hne, hcls] at hok
      rw [Except.ok.injEq, Prod.mk.injEq] at hok
      obtain ⟨rfl, rfl⟩ := hok
      exact fun k hk => Or.inl hk
    | File =>
      cases alive with
      | true =>
        by_cases hpar : parentDir path = ""
        · simp only [FileManager.onFileAdded, if_neg hne, hcls, if_pos hpar,
            if_true] at hok
          rw [Except.ok.injEq, Prod.mk.injEq] at hok
          obtain ⟨rfl, rfl⟩ := hok
          exact fun k hk => Or.inl hk
        · simp only [FileManager.onFileAdded, if_neg hne, hcls, if_neg hpar,
            if_true] at hok
          rw [Except.ok.injEq, Prod.mk.injEq] at hok
          obtain ⟨rfl, rfl⟩ := hok
          intro k hk
          rcases mem_mapKeys_mapInsertFile.mp hk with h1 | h2
          · exact Or.inl h1
          · exact Or.inr ⟨h2, hpar⟩
      | false =>
        simp only [FileManager.onFileAdded, if_neg hne, hcls, Bool.false_eq_true,
          if_false] at hok
        exact Except.noConfusion hok
    | Source =>
      cases alive with
      | true =>
        by_cases hpar : parentDir path = ""
        · simp only [FileManager.onFileAdded, if_neg hne, hcls, if_pos hpar,
            if_true] at hok
          rw [Except.ok.injEq, Prod.mk.injEq] at hok
          obtain ⟨rfl, rfl⟩ := hok
          exact fun k hk => Or.inl hk
        · simp only [FileManager.onFileAdded, if_neg hne, hcls, if_neg hpar,
            if_true] at hok
          rw [Except.ok.injEq, Prod.mk.injEq] at hok
          obtain ⟨rfl, rfl⟩ := hok
          intro k hk
          rcases mem_mapKeys_mapInsertFile.mp hk with h1 | h2
          · exact Or.inl h1
          · exact Or.inr ⟨h2, hpar⟩
      | false =>
        simp only [FileManager.onFileAdded, if_neg hne, hcls, Bool.false_eq_true,
          if_false] at hok
        exact Except.noConfusion hok

/-- onFileRemoved never introduces new keys. -/
theorem onFileRemoved_keys (alive : Bool) {st st' : FMState} {path : String}
    {effs : List Effect}
    (hok : FileManager.onFileRemoved alive st path = Except.ok (st', effs)) :
    ∀ k, k ∈ mapKeys st'.files → k ∈ mapKeys st.files := by
  cases alive with
  | false => exact Except.noConfusion hok
  | true =>
    by_cases hc : mapContains st.files path = true
    · simp only [FileManager.onFileRemoved, hc, if_true] at hok
      rw [Except.ok.injEq, Prod.mk.injEq] at hok
      obtain ⟨rfl, rfl⟩ := hok
      exact fun k hk => hk
    · cases hfind : mapFind st.files (parentDir path) with
      | none =>
        simp only [FileManager.onFileRemoved, if_true, if_neg hc, hfind] at hok
        rw [Except.ok.injEq, Prod.mk.injEq] at hok
        obtain ⟨rfl, rfl⟩ := hok
        exact fun k hk => hk
      | some dir =>
        by_cases hemp : setRemove dir (fileName path) = []
        · simp only [FileManager.onFileRemoved, if_true, if_neg hc, hfind,
            if_pos hemp] at hok
          rw [Except.ok.injEq, Prod.mk.injEq] at hok
          obtain ⟨rfl, rfl⟩ := hok
          exact fun k hk => (mem_mapKeys_mapRemoveKey hk).1
        · simp only [FileManager.onFileRemoved, if_true, if_neg hc, hfind,
            if_neg hemp] at hok
          rw [Except.ok.injEq, Prod.mk.injEq] at hok
          obtain ⟨rfl, rfl⟩ := hok
          intro k hk
          rw [mapKeys_mapSetKey] at hk
          exact hk

/-- C3: the empty path never appears as a key of the files map: the scan
completion handler establishes this unconditionally, and both incremental
handlers preserve it. -/
theorem C3_no_empty_key (cfg : Config) (cls : String → FilterResult)
    (st st' : FMState) (paths : List String) (path : String) (effs : List Effect) :
    ("" ∉ mapKeys (FileManager.onRecurseJobFinished cfg st paths).1.files)
    ∧ ("" ∉ mapKeys st.files →
        FileManager.onFileAdded true cfg cls st path = Except.ok (st', effs) →
        "" ∉ mapKeys st'.files)
    ∧ ("" ∉ mapKeys st.files →
        FileManager.onFileRemoved true st path = Except.ok (st', effs) →
        "" ∉ mapKeys st'.files) := by
  refine ⟨?_, ?_, ?_⟩
  · intro hmem
    exact foldl_recurseStep_keys_ne cfg paths (FMState.mk [] [], [])
      (by intro k hk; simp [mapKeys] at hk) "" hmem rfl
  · intro h0 hok hmem
    rcases onFileAdded_keys true cfg cls hok "" hmem with h1 | ⟨h2, h3⟩
    · exact h0 h1
    · exact h3 h2.symm
  · intro h0 hok hmem
    exact h0 (onFileRemoved_keys true hok "" hmem)

/-- Witness for C3 at concrete inputs for all three operations. -/
theorem C3_no_empty_key_witness :
    ("" ∉ mapKeys (FileManager.onRecurseJobFinished (Config.mk false)
        (FMState.mk [] []) ["a.c", "/r/D1/a.c"]).1.files)
    ∧ ("" ∉ mapKeys (FMState.mk [("/r/D1", ["a.c"])] ["/r/D1"]).files)
    ∧ ("" ∉ mapKeys (FMState.mk ([] : FilesMap) ([] : List String)).files) := by
  refine ⟨?_, ?_, ?_⟩
  · exact (C3_no_empty_key (Config.mk false) (fun _ => FilterResult.File)
      (FMState.mk [] []) (FMState.mk [] []) ["a.c", "/r/D1/a.c"] "" []).1
  · exact (C3_no_empty_key (Config.mk false) (fun _ => FilterResult.File)
      (FMState.mk [] []) (FMState.mk [("/r/D1", ["a.c"])] ["/r/D1"]) []
      "/r/D1/a.c" [Effect.watchCall "/r/D1"]).2.1 (by decide) (by rfl)
  · exact (C3_no_empty_key (Config.mk false) (fun _ => FilterResult.File)
      (FMState.mk [("/r/D1", ["a.c"])] ["/r/D1"]) (FMState.mk [] [])
      [] "/r/D1/a.c" [Effect.unwatchCall "/r/D1"]).2.2 (by decide) (by rfl)

/-! ## C7 -/

/-- The watch invariant as it actually holds: every key of the files map
that the watch policy does not refuse is a registered watch target. -/
def WatchedInv (cfg : Config) (st : FMState) : Prop :=
  ∀ k, k ∈ mapKeys st.files → watchAllowed cfg k = true → k ∈ st.watches

/-- The scan-completion fold preserves the watch invariant. -/
theorem foldl_recurseStep_watched (cfg : Config) (l : List String) :
    ∀ acc : FMState × List Effect, WatchedInv cfg acc.1 →
      WatchedInv cfg (l.foldl (recurseStep cfg) acc).1 := by
  induction l with
  | nil => intro acc h; exact h
  | cons p rest ih =>
    intro acc h
    simp only [List.foldl_cons]
    apply ih
    by_cases hp : parentDir p = ""
    · simp only [recurseStep, if_pos hp]
      exact h
    · simp only [recurseStep, if_neg hp]
      intro k hk hall
      rcases mem_mapKeys_mapInsertFile.mp hk with h1 | rfl
      · exact mem_watch_of_mem (h k h1 hall)
      · exact self_mem_watch hall

/-- onFileAdded preserves the watch invariant. -/
theorem onFileAdded_watched (alive : Bool) (cfg : Config)
    (cls : String → FilterResult) {st st' : FMState} {path : String}
    {effs : List Effect} (hinv : WatchedInv cfg st)
    (hok : FileManager.onFileAdded alive cfg cls st path = Except.ok (st', effs)) :
    WatchedInv cfg st' := by
  by_cases hne : path = ""
  · subst hne
    simp only [FileManager.onFileAdded, if_pos rfl, if_true] at hok
    rw [Except.ok.injEq, Prod.mk.injEq] at hok
    obtain ⟨rfl, rfl⟩ := hok
    exact hinv
  · cases hcls : cls path with
    | Directory =>
      cases alive with
      | true =>
        simp only [FileManager.onFileAdded, if_neg hne, hcls, if_true] at hok
        rw [Except.ok.injEq, Prod.mk.injEq] at hok
        obtain ⟨rfl, rfl⟩ := hok
        intro k hk hall
        exact mem_watch_of_mem (hinv k hk hall)
      | false =>
        simp only [FileManager.onFileAdded, if_neg hne, hcls, Bool.false_eq_true,
          if_false] at hok
        exact Except.noConfusion hok
    | Filtered =>
      simp only [FileManager.onFileAdded, if_neg hne, hcls] at hok
      rw [Except.ok.injEq, Prod.mk.injEq] at hok
      obtain ⟨rfl, rfl⟩ := hok
      exact hinv
    | File =>
      cases alive with
      | true =>
        by_cases hpar : parentDir path = ""
        · simp only [FileManager.onFileAdded, if_neg hne, hcls, if_pos hpar,
            if_true] at hok
          rw [Except.ok.injEq, Prod.mk.injEq] at hok
          obtain ⟨rfl, rfl⟩ := hok
          exact hinv
        · simp only [FileManager.onFileAdded, if_neg hne, hcls, if_neg hpar,
            if_true] at hok
          rw [Except.ok.injEq, Prod.mk.injEq] at hok
          obtain ⟨rfl, rfl⟩ := hok
          intro k hk hall
          rcases mem_mapKeys_mapInsertFile.mp hk with h1 | rfl
          · exact mem_watch_of_mem (hinv k h1 hall)
          · exact self_mem_watch hall
      | false =>
        simp only [FileManager.onFileAdded, if_neg hne, hcls, Bool.false_eq_true,
          if_false] at hok
        exact Except.noConfusion hok
    | Source =>
      cases alive with
      | true =>
        by_cases hpar : parentDir path = ""
        · simp only [FileManager.onFileAdded, if_neg hne, hcls, if_pos hpar,
            if_true] at hok
          rw [Except.ok.injEq, Prod.mk.injEq] at hok
          obtain ⟨rfl, rfl⟩ := hok
          exact hinv
        · simp only [FileManager.onFileAdded, if_neg hne, hcls, if_neg hpar,
            if_true] at hok
          rw [Except.ok.injEq, Prod.mk.injEq] at hok
          obtain ⟨rfl, rfl⟩ := hok
          intro k hk hall
          rcases mem_mapKeys_mapInsertFile.mp hk with h1 | rfl
          · exact mem_watch_of_mem (hinv k h1 hall)
          · exact self_mem_watch hall
      | false =>
        simp only [FileManager.onFileAdded, if_neg hne, hcls, Bool.false_eq_true,
          if_false] at hok
        exact Except.noConfusion hok

/-- onFileRemoved preserves the watch invariant. -/
theorem onFileRemoved_watched (alive : Bool) (cfg : Config) {st st' : FMState}
    {path : String} {effs : List Effect} (hinv : WatchedInv cfg st)
    (hok : FileManager.onFileRemoved alive st path = Except.ok (st', effs)) :
    WatchedInv cfg st' := by
  cases alive with
  | false => exact Except.noConfusion hok
  | true =>
    by_cases hc : mapContains st.files path = true
    · simp only [FileManager.onFileRemoved, hc, if_true] at hok
      rw [Except.ok.injEq, Prod.mk.injEq] at hok
      obtain ⟨rfl, rfl⟩ := hok
      exact hinv
    · cases hfind : mapFind st.files (parentDir path) with
      | none =>
        simp only [FileManager.onFileRemoved, if_true, if_neg hc, hfind] at hok
        rw [Except.ok.injEq, Prod.mk.injEq] at hok
        obtain ⟨rfl, rfl⟩ := hok
        exact hinv
      | some dir =>
        by_cases hemp : setRemove dir (fileName path) = []
        · simp only [FileManager.onFileRemoved, if_true, if_neg hc, hfind,
            if_pos hemp] at hok
          rw [Except.ok.injEq, Prod.mk.injEq] at hok
          obtain ⟨rfl, rfl⟩ := hok
          intro k hk hall
          obtain ⟨hk1, hk2⟩ := mem_mapKeys_mapRemoveKey hk
          exact mem_setRemove.mpr ⟨hinv k hk1 hall, hk2⟩
        · simp only [FileManager.onFileRemoved, if_true, if_neg hc, hfind,
            if_neg hemp] at hok
          rw [Except.ok.injEq, Prod.mk.injEq] at hok
          obtain ⟨rfl, rfl⟩ := hok
          intro k hk hall
          rw [mapKeys_mapSetKey] at hk
          exact hinv k hk hall

/-- C7 counterexample: with watching globally disabled
(Server::NoFileManagerWatch set), the scan-completion handler still inserts
the parent key but FileManager::watch refuses the registration, so a key of
the membership store is not a watch target and the two sets are not equal. -/
theorem C7_counterexample :
    "/r/D1" ∈ mapKeys ((FileManager.onRecurseJobFinished (Config.mk true)
        (FMState.mk [] []) ["/r/D1/a.c"]).1.files)
    ∧ "/r/D1" ∉ ((FileManager.onRecurseJobFinished (Config.mk true)
        (FMState.mk [] []) ["/r/D1/a.c"]).1.watches) := by
  decide

/-- C7 (amended): every key of the membership store that the watch policy
does not refuse (watching enabled and no version-control metadata component)
is an actively registered watch target; the scan-completion handler
establishes this invariant and both watcher-event handlers preserve it. -/
theorem C7_watch_invariant (cfg : Config) (cls : String → FilterResult)
    (st st' : FMState) (paths : List String) (path : String) (effs : List Effect) :
    WatchedInv cfg (FileManager.onRecurseJobFinished cfg st paths).1
    ∧ (WatchedInv cfg st →
        FileManager.onFileAdded true cfg cls st path = Except.ok (st', effs) →
        WatchedInv cfg st')
    ∧ (WatchedInv cfg st →
        FileManager.onFileRemoved true st path = Except.ok (st', effs) →
        WatchedInv cfg st') := by
  refine ⟨?_, ?_, ?_⟩
  · exact foldl_recurseStep_watched cfg paths (FMState.mk [] [], [])
      (by intro k hk hall; simp [mapKeys] at hk)
  · exact fun hinv hok => onFileAdded_watched true cfg cls hinv hok
  · exact fun hinv hok => onFileRemoved_watched true cfg hinv hok

/-- Witness for C7 at concrete inputs. -/
theorem C7_watch_invariant_witness :
    "/r/D1" ∈ ((FileManager.onRecurseJobFinished (Config.mk false)
        (FMState.mk [] []) ["/r/D1/a.c"]).1.watches)
    ∧ "/r/D1" ∈ (FMState.mk [("/r/D1", ["a.c"])] ["/r/D1"]).watches := by
  constructor
  · exact (C7_watch_invariant (Config.mk false) (fun _ => FilterResult.File)
      (FMState.mk [] []) (FMState.mk [] []) ["/r/D1/a.c"] "" []).1
      "/r/D1" (by decide) (by decide)
  · exact (C7_watch_invariant (Config.mk false) (fun _ => FilterResult.File)
      (FMState.mk [] []) (FMState.mk [("/r/D1", ["a.c"])] ["/r/D1"]) []
      "/r/D1/a.c" [Effect.watchCall "/r/D1"]).2.1
      (by intro k hk hall; simp [mapKeys] at hk) (by rfl)
      "/r/D1" (by decide) (by decide)

/-! ## C2 -/

/-- The descent rules of the scan, as a reachability predicate: a path is
reachable when it is the absolute path of a child classified File or Source
of some node of the forest, possibly below directories that are classified
Directory (not Filtered) and carry no ignore marker. -/
inductive ScanReachable (filters : List String) :
    String → List FSNode → String → Prop where
  | fileHit (pre : String) (ns : List FSNode) (name : String) (src : Bool) :
      FSNode.file name src ∈ ns →
      (classifyPath filters (pre ++ "/" ++ name) (FSNode.file name src) =
          FilterResult.File ∨
        classifyPath filters (pre ++ "/" ++ name) (FSNode.file name src) =
          FilterResult.Source) →
      ScanReachable filters pre ns (pre ++ "/" ++ name)
  | descend (pre : String) (ns : List FSNode) (name : String)
      (children : List FSNode) (p : String) :
      FSNode.dir name false children ∈ ns →
      classifyPath filters (pre ++ "/" ++ name)
          (FSNode.dir name false children) = FilterResult.Directory →
      ScanReachable filters (pre ++ "/" ++ name) children p →
      ScanReachable filters pre ns p

/-- Reachability is monotone in the forest. -/
theorem ScanReachable.mono {filters : List String} {pre : String}
    {ns ns' : List FSNode} {p : String} (hsub : ∀ n, n ∈ ns → n ∈ ns')
    (h : ScanReachable filters pre ns p) : ScanReachable filters pre ns' p := by
  cases h with
  | fileHit _ _ name src hmem hcls =>
    exact ScanReachable.fileHit _ _ name src (hsub _ hmem) hcls
  | descend _ _ name children p hmem hcls hrec =>
    exact ScanReachable.descend _ _ name children p (hsub _ hmem) hcls hrec

/-- Membership in the scan of one node lifts to membership in the scan of
any forest containing it. -/
theorem mem_visitList_of_node {filters : List String} {pre : String}
    {ns : List FSNode} {n : FSNode} {p : String} (hmem : n ∈ ns)
    (h : p ∈ visitNode filters pre n) : p ∈ visitList filters pre ns := by
  induction ns with
  | nil => cases hmem
  | cons m rest ih =>
    rcases List.mem_cons.mp hmem with rfl | hmem'
    · simp only [visitList, List.mem_append]
      exact Or.inl h
    · simp only [visitList, List.mem_append]
      exact Or.inr (ih hmem')

/-- Every reachable path is produced by the scan. -/
theorem ScanReachable.to_mem {filters : List String} {pre : String}
    {ns : List FSNode} {p : String} (h : ScanReachable filters pre ns p) :
    p ∈ visitList filters pre ns := by
  induction h with
  | fileHit pre ns name src hmem hcls =>
    apply mem_visitList_of_node hmem
    rcases hcls with hc | hc <;> simp [visitNode, hc]
  | descend pre ns name children p hmem hcls hrec ih =>
    apply mem_visitList_of_node hmem
    simp only [visitNode, hcls, Bool.false_eq_true, if_false]
    exact ih

/-- Every path produced by the scan is reachable (by strong induction on
the size of the forest). -/
theorem mem_visitList_reach (filters : List String) :
    ∀ (k : Nat) (pre : String) (ns : List FSNode), sizeOf ns < k →
      ∀ p, p ∈ visitList filters pre ns → ScanReachable filters pre ns p := by
  intro k
  induction k with
  | zero => intro pre ns h; omega
  | succ k ih =>
    intro pre ns hsize p hp
    cases ns with
    | nil => cases hp
    | cons n rest =>
      simp only [visitList, List.mem_append] at hp
      rcases hp with hp | hp
      · cases n with
        | dir name marker children =>
          have hch : sizeOf children < k := by
            simp only [List.cons.sizeOf_spec, FSNode.dir.sizeOf_spec] at hsize
            omega
          cases hc : classifyPath filters (pre ++ "/" ++ name)
              (FSNode.dir name marker children) with
          | Filtered => simp [visitNode, hc] at hp
          | Directory =>
            cases marker with
            | true => simp [visitNode, hc] at hp
            | false =>
              simp only [visitNode, hc, Bool.false_eq_true, if_false] at hp
              exact ScanReachable.descend pre (FSNode.dir name false children :: rest)
                name children p (List.mem_cons_self _ _) hc
                (ih (pre ++ "/" ++ name) children hch p hp)
          | File =>
            exfalso
            by_cases hf : (pre ++ "/" ++ name) ∈ filters
            · simp only [classifyPath, if_pos hf] at hc
              cases hc
            · simp only [classifyPath, if_neg hf] at hc
              cases hc
          | Source =>
            exfalso
            by_cases hf : (pre ++ "/" ++ name) ∈ filters
            · simp only [classifyPath, if_pos hf] at hc
              cases hc
            · simp only [classifyPath, if_neg hf] at hc
              cases hc
        | file name src =>
          cases hc : classifyPath filters (pre ++ "/" ++ name)
              (FSNode.file name src) with
          | Filtered => simp [visitNode, hc] at hp
          | Directory => simp [visitNode, hc] at hp
          | File =>
            simp only [visitNode, hc, List.mem_singleton] at hp
            subst hp
            exact ScanReachable.fileHit pre (FSNode.file name src :: rest)
              name src (List.mem_cons_self _ _) (Or.inl hc)
          | Source =>
            simp only [visitNode, hc, List.mem_singleton] at hp
            subst hp
            exact ScanReachable.fileHit pre (FSNode.file name src :: rest)
              name src (List.mem_cons_self _ _) (Or.inr hc)
      · have hrest : sizeOf rest < k := by
          simp only [List.cons.sizeOf_spec] at hsize
          omega
        exact ScanReachable.mono (fun m hm => List.mem_cons.mpr (Or.inr hm))
          (ih pre rest hrest p hp)

/-- C2: the scan result is exactly the set of File/Source paths reachable
from the root under the descent rules: Filtered paths are skipped without
descent, marked directories are skipped entirely, unmarked directories are
descended into, and File/Source paths are included as absolute paths. -/
theorem C2_scan_paths (filters : List String) (root : String)
    (tree : List FSNode) (p : String) :
    p ∈ ScanThread.paths filters root tree ↔ ScanReachable filters root tree p := by
  constructor
  · intro h
    exact mem_visitList_reach filters (sizeOf tree + 1) root tree
      (Nat.lt_succ_self _) p h
  · intro h
    exact ScanReachable.to_mem h

/-! ## C9 -/

/-- With a configuration that stays constant for the whole traversal, the
live-read scan computes exactly the snapshot scan (strong induction on the
size of the forest). -/
theorem visitListLive_const_aux (filters : List String) :
    ∀ (k : Nat) (ns : List FSNode), sizeOf ns < k → ∀ (t : Nat) (pre : String),
      (visitListLive (fun _ => filters) t pre ns).1 = visitList filters pre ns := by
  intro k
  induction k with
  | zero => intro ns h; omega
  | succ k ih =>
    intro ns hsize t pre
    cases ns with
    | nil => rfl
    | cons n rest =>
      have hrest : sizeOf rest < k := by
        simp only [List.cons.sizeOf_spec] at hsize
        omega
      have hnode : ∀ t0, (visitNodeLive (fun _ => filters) t0 pre n).1 =
          visitNode filters pre n := by
        intro t0
        cases n with
        | dir name marker children =>
          have hch : sizeOf children < k := by
            simp only [List.cons.sizeOf_spec, FSNode.dir.sizeOf_spec] at hsize
            omega
          cases hc : classifyPath filters (pre ++ "/" ++ name)
              (FSNode.dir name marker children) with
          | Filtered => simp [visitNodeLive, visitNode, hc]
          | Directory =>
            cases marker with
            | true => simp [visitNodeLive, visitNode, hc]
            | false =>
              simp only [visitNodeLive, visitNode, hc, Bool.false_eq_true,
                if_false]
              exact ih children hch (t0 + 1) (pre ++ "/" ++ name)
          | File => simp [visitNodeLive, visitNode, hc]
          | Source => simp [visitNodeLive, visitNode, hc]
        | file name s =>
          cases hc : classifyPath filters (pre ++ "/" ++ name)
              (FSNode.file name s) with
          | Filtered => simp [visitNodeLive, visitNode, hc]
          | Directory => simp [visitNodeLive, visitNode, hc]
          | File => simp [visitNodeLive, visitNode, hc]
          | Source => simp [visitNodeLive, visitNode, hc]
      simp only [visitListLive, visitList]
      rw [hnode t, ih rest hrest _ pre]

/-- C9 (amended): the scan reads the exclusion-filter configuration through
a live reference at each classification step; only when the configuration
stays unchanged for the duration of the scan is the result that of a scan
over the start-of-scan value, the snapshot scan. -/
theorem C9_constant_config (filters : List String) (t : Nat) (pre : String)
    (ns : List FSNode) :
    (visitListLive (fun _ => filters) t pre ns).1 = visitList filters pre ns :=
  visitListLive_const_aux filters (sizeOf ns + 1) ns (Nat.lt_succ_self _) t pre

/-- Fixture tree for the live-filter counterexample: one unmarked directory
d containing one plain file a.c. -/
def liveTree : List FSNode := [FSNode.dir "d" false [FSNode.file "a.c" false]]

/-- A filter timeline that changes after the scan has started: empty at step
0 (scan start), excluding the file from step 1 on. -/
def liveH2 (t : Nat) : List String :=
  if t = 0 then [] else ["/r/d/a.c"]

/-- C9 counterexample: two scans whose configuration timelines agree at scan
start (both empty at step 0) produce different result sets when the
configuration changes while the scan is running, because mFilters is a
reference to the live configuration rather than an immutable copy. -/
theorem C9_counterexample :
    (fun _ => ([] : List String)) 0 = liveH2 0
    ∧ (visitListLive (fun _ => ([] : List String)) 0 "/r" liveTree).1 =
      ["/r/d/a.c"]
    ∧ (visitListLive liveH2 0 "/r" liveTree).1 = [] := by
  refine ⟨rfl, ?_, ?_⟩ <;> rfl
